import Mathlib

/-!
Shallow embedding of the implicitly restarted Arnoldi (Lanczos) eigensolver
`SymEigsSolver` / `SymEigsShiftSolver` (SymEigsSolver.h) and of the dense
shift-solve collaborator (DenseGenRealShiftSolve.h).

Modelling conventions:
* scalars are an arbitrary `LinearOrderedField` (instantiated with `ℚ` in
  concrete witnesses); the machine-precision constant `prec` is carried as an
  opaque field of the solver configuration, since `pow(eps, 2/3)` is a
  floating-point computation;
* vectors and matrices are total functions `ℕ → S` and `ℕ → ℕ → S`; the
  dimensions `dim_n`, `ncv`, `nev` are carried in the configuration, and every
  loop of the source ranges over exactly the indices the C++ code touches;
* calls into the Eigen library (`.norm()`, `SelfAdjointEigenSolver`,
  `HouseholderQR::householderQ`, `PartialPivLU::solve`) are opaque function
  parameters of the configuration: the embedding records exactly which
  arguments the solver passes to them and how the results are consumed;
* `std::sort` with the `EigenvalueComparator` of SelectionRule.h (a file whose
  source is not available) is modelled by `List.insertionSort` with the
  comparison relation described by the specification.
-/

/-- Vectors of scalars, indexed by `ℕ`; the live range is `[0, dim)`. -/
abbrev Vec (S : Type) : Type := ℕ → S

/-- Matrices of scalars, indexed by row and column; the live range is a
`rows × cols` block. -/
abbrev Mat (S : Type) : Type := ℕ → ℕ → S

section LinAlg

variable {S : Type} [LinearOrderedField S]

/-- Dot product of the first `n` entries: `u.dot(v)` on `n`-vectors. -/
def dot (n : ℕ) (u v : Vec S) : S := ∑ j ∈ Finset.range n, u j * v j

/-- Matrix–vector product with inner dimension `m`. -/
def matVec (m : ℕ) (A : Mat S) (x : Vec S) : Vec S :=
  fun r => ∑ j ∈ Finset.range m, A r j * x j

/-- Matrix–matrix product with inner dimension `m`. -/
def matMul (m : ℕ) (A B : Mat S) : Mat S :=
  fun r c => ∑ j ∈ Finset.range m, A r j * B j c

/-- Matrix transpose (`.adjoint()` on real matrices). -/
def transposeM (A : Mat S) : Mat S := fun r c => A c r

/-- `A - θ·I`, as built by `fac_H - ritz_val[i] * Matrix::Identity(ncv, ncv)`. -/
def subShift (A : Mat S) (θ : S) : Mat S :=
  fun r c => A r c - (if r = c then θ else 0)

end LinAlg

section ListIdx

variable {α : Type}

/-- Read position `n` of a list, with default `d` out of range. -/
def getIdx (d : α) : List α → ℕ → α
  | [], _ => d
  | a :: _, 0 => a
  | _ :: l, n + 1 => getIdx d l n

/-- Write position `n` of a list (no-op out of range). -/
def setIdx : List α → ℕ → α → List α
  | [], _, _ => []
  | _ :: l, 0, b => b :: l
  | a :: l, n + 1, b => a :: setIdx l n b

/-- `std::swap(l[i], l[j])`. -/
def swapIdx (d : α) (l : List α) (i j : ℕ) : List α :=
  setIdx (setIdx l i (getIdx d l j)) j (getIdx d l i)

theorem length_setIdx (l : List α) (n : ℕ) (b : α) :
    (setIdx l n b).length = l.length := by
  induction l generalizing n with
  | nil => rfl
  | cons a l ih =>
    cases n with
    | zero => rfl
    | succ n => simp [setIdx, ih]

theorem getIdx_setIdx_self (d b : α) (l : List α) (n : ℕ) (h : n < l.length) :
    getIdx d (setIdx l n b) n = b := by
  induction l generalizing n with
  | nil => simp at h
  | cons a l ih =>
    cases n with
    | zero => rfl
    | succ n =>
      simp only [List.length_cons, Nat.succ_lt_succ_iff] at h
      simpa [setIdx, getIdx] using ih n h

theorem getIdx_setIdx_ne (d b : α) (l : List α) (n m : ℕ) (h : m ≠ n) :
    getIdx d (setIdx l n b) m = getIdx d l m := by
  induction l generalizing n m with
  | nil => rfl
  | cons a l ih =>
    cases n with
    | zero =>
      cases m with
      | zero => exact absurd rfl h
      | succ m => rfl
    | succ n =>
      cases m with
      | zero => rfl
      | succ m =>
        simpa [setIdx, getIdx] using ih n m (by omega)

theorem length_swapIdx (d : α) (l : List α) (i j : ℕ) :
    (swapIdx d l i j).length = l.length := by
  simp [swapIdx, length_setIdx]

theorem getIdx_swapIdx_left (d : α) (l : List α) (i j : ℕ)
    (hi : i < l.length) (hj : j < l.length) :
    getIdx d (swapIdx d l i j) i = getIdx d l j := by
  unfold swapIdx
  by_cases hij : i = j
  · subst hij
    exact getIdx_setIdx_self d _ _ i (by simp [length_setIdx, hi])
  · rw [getIdx_setIdx_ne d _ _ j i hij, getIdx_setIdx_self d _ _ i hi]

theorem getIdx_swapIdx_right (d : α) (l : List α) (i j : ℕ)
    (hj : j < l.length) :
    getIdx d (swapIdx d l i j) j = getIdx d l i := by
  unfold swapIdx
  exact getIdx_setIdx_self d _ _ j (by simp [length_setIdx, hj])

theorem getIdx_swapIdx_ne (d : α) (l : List α) (i j k : ℕ)
    (hki : k ≠ i) (hkj : k ≠ j) :
    getIdx d (swapIdx d l i j) k = getIdx d l k := by
  unfold swapIdx
  rw [getIdx_setIdx_ne d _ _ j k hkj, getIdx_setIdx_ne d _ _ i k hki]

end ListIdx

/-- The selection-rule tags of SelectionRule.h (values of the compile-time
template parameter `SelectionRule`). -/
inductive SelRule : Type where
  | LARGEST_MAGN : SelRule
  | LARGEST_ALGE : SelRule
  | SMALLEST_ALGE : SelRule
  | BOTH_ENDS : SelRule
deriving DecidableEq

/-- Modelled from the spec: SelectionRule.h (the `EigenvalueComparator`
policy) is not among the available sources.  Per spec §2 ("largest magnitude,
largest/smallest algebraic value, both extremes") and the source comment at
SymEigsSolver.h lines 134-136 ("For BOTH_ENDS, the eigenvalues are sorted
according to the LARGEST_ALGE rule"), the comparison places `p` before `q`
as follows.  `std::sort` with the strict comparator is modelled by
`List.insertionSort` with the reflexive closure of that order. -/
def ruleLE {S : Type} [LinearOrderedField S] :
    SelRule → (S × ℕ) → (S × ℕ) → Prop
  | SelRule.LARGEST_MAGN => fun p q => |q.1| ≤ |p.1|
  | SelRule.LARGEST_ALGE => fun p q => q.1 ≤ p.1
  | SelRule.SMALLEST_ALGE => fun p q => p.1 ≤ q.1
  | SelRule.BOTH_ENDS => fun p q => q.1 ≤ p.1

instance {S : Type} [LinearOrderedField S] (rule : SelRule) :
    DecidableRel (ruleLE (S := S) rule) := by
  cases rule <;> exact fun p q => inferInstanceAs (Decidable (_ ≤ _))

theorem ruleLE_total {S : Type} [LinearOrderedField S] (rule : SelRule)
    (p q : S × ℕ) : ruleLE rule p q ∨ ruleLE rule q p := by
  cases rule <;> exact le_total _ _ |>.symm

theorem ruleLE_trans {S : Type} [LinearOrderedField S] (rule : SelRule)
    (p q r : S × ℕ) (h1 : ruleLE rule p q) (h2 : ruleLE rule q r) :
    ruleLE rule p r := by
  cases rule
  case SMALLEST_ALGE => exact le_trans h1 h2
  all_goals exact le_trans h2 h1

/-- The mutable state of one `SymEigsSolver` instance: the Arnoldi
factorization `(fac_V, fac_H, fac_f)` and the Ritz data
`(ritz_val, ritz_vec, ritz_conv)`. -/
@[ext]
structure ArpackState (S : Type) : Type where
  fac_V : Mat S
  fac_H : Mat S
  fac_f : Vec S
  ritz_val : Vec S
  ritz_vec : Mat S
  ritz_conv : ℕ → Bool

/-- The immutable configuration of a `SymEigsSolver` instance: the dimensions
and precision constant fixed at construction, the borrowed operator
(`op->prod`, called through the virtual `matrix_operation`), and the Eigen
library entry points the solver calls (vector norm, symmetric
eigendecomposition of `fac_H` returning `(eigenvalues, eigenvectors)`, and
the orthogonal factor `householderQ()` of a Householder QR). -/
structure SymEigsConfig (S : Type) : Type where
  dim_n : ℕ
  nev : ℕ
  ncv : ℕ
  prec : S
  matrix_operation : Vec S → Vec S
  norm : Vec S → S
  eig : Mat S → Vec S × Mat S
  qrQ : Mat S → Mat S

section Solver

variable {S : Type} [LinearOrderedField S]

/-- Default entry used when reading a sorted pair list out of range (never hit
at the in-range indices the source touches). -/
def pairDflt : S × ℕ := (0, 0)

/-- One iteration `i` of the loop of `factorize_from` (SymEigsSolver.h lines
63-76): `beta = fac_f.norm(); v = fac_f / beta; fac_V.col(i) = v;
fac_H.block(i, 0, 1, i).setZero(); fac_H(i, i-1) = beta;
matrix_operation(v, w); h = fac_V.leftCols(i+1).adjoint() * w;
fac_f = w - fac_V.leftCols(i+1) * h; fac_H.block(0, i, i+1, 1) = h`. -/
def factorizeStep (P : SymEigsConfig S) (s : ArpackState S) (i : ℕ) :
    ArpackState S :=
  let beta := P.norm s.fac_f
  let v : Vec S := fun r => s.fac_f r / beta
  let V1 : Mat S := fun r c => if c = i then v r else s.fac_V r c
  let H1 : Mat S := fun r c => if r = i ∧ c < i then 0 else s.fac_H r c
  let H2 : Mat S := fun r c => if r = i ∧ c = i - 1 then beta else H1 r c
  let w : Vec S := P.matrix_operation v
  let h : Vec S := fun j => dot P.dim_n (fun r => V1 r j) w
  let f1 : Vec S := fun r => w r - ∑ j ∈ Finset.range (i + 1), V1 r j * h j
  let H3 : Mat S := fun r c => if c = i ∧ r ≤ i then h r else H2 r c
  { s with fac_V := V1, fac_H := H3, fac_f := f1 }

/-- `factorize_from(from_k, to_m, fk)` (SymEigsSolver.h lines 55-77): returns
immediately when `to_m <= from_k`, otherwise sets `fac_f = fk` and runs the
factorization loop for `i = from_k, ..., to_m - 1`. -/
def factorize_from (P : SymEigsConfig S) (from_k to_m : ℕ) (fk : Vec S)
    (s : ArpackState S) : ArpackState S :=
  if to_m ≤ from_k then s
  else (List.range' from_k (to_m - from_k)).foldl (factorizeStep P)
    { s with fac_f := fk }

/-- The first `m` iterations of the BOTH_ENDS rearrangement loop of
`retrieve_ritzpair` (SymEigsSolver.h lines 137-144):
`swap(pairs[offset+i], pairs[ncv-1-i])` for `i = 0, ..., m-1`, with
`offset = (nev+1)/2`. -/
def swapFoldM (P : SymEigsConfig S) (m : ℕ) (l : List (S × ℕ)) :
    List (S × ℕ) :=
  (List.range m).foldl
    (fun acc i => swapIdx pairDflt acc ((P.nev + 1) / 2 + i) (P.ncv - 1 - i)) l

/-- The full BOTH_ENDS rearrangement loop: `for i < nev - offset:
swap(pairs[offset+i], pairs[ncv-1-i])`. -/
def swapFold (P : SymEigsConfig S) (l : List (S × ℕ)) : List (S × ℕ) :=
  swapFoldM P (P.nev - (P.nev + 1) / 2) l

/-- The list of `(eigenvalue, index)` pairs of the eigendecomposition of
`fac_H` (SymEigsSolver.h lines 126-132). -/
def hEigPairs (P : SymEigsConfig S) (s : ArpackState S) : List (S × ℕ) :=
  (List.range P.ncv).map (fun i => ((P.eig s.fac_H).1 i, i))

/-- The pair list after `std::sort(pairs.begin(), pairs.end(), comp)`
(SymEigsSolver.h line 133), modelled with `List.insertionSort`. -/
def sortedPairs (P : SymEigsConfig S) (rule : SelRule) (s : ArpackState S) :
    List (S × ℕ) :=
  List.insertionSort (ruleLE rule) (hEigPairs P s)

/-- `retrieve_ritzpair()` (SymEigsSolver.h lines 120-154): eigendecomposition
of `fac_H`, sort of all `ncv` (eigenvalue, index) pairs by the selection-rule
comparator, BOTH_ENDS rearrangement, then `ritz_val[i] = pairs[i].first` for
`i < ncv` and `ritz_vec.col(i) = evecs.col(pairs[i].second)` for `i < nev`. -/
def retrieve_ritzpair (P : SymEigsConfig S) (rule : SelRule)
    (s : ArpackState S) : ArpackState S :=
  let evecs := (P.eig s.fac_H).2
  let sorted2 := if rule = SelRule.BOTH_ENDS then swapFold P (sortedPairs P rule s)
    else sortedPairs P rule s
  { s with
    ritz_val := fun i =>
      if i < P.ncv then (getIdx pairDflt sorted2 i).1 else s.ritz_val i,
    ritz_vec := fun r c =>
      if c < P.nev then evecs r (getIdx pairDflt sorted2 c).2
      else s.ritz_vec r c }

/-- `converged(tol)` (SymEigsSolver.h lines 109-117): for `i < nev`,
`bound[i] = tol * max(|ritz_val[i]|, prec)`,
`resid[i] = |ritz_vec(ncv-1, i)| * fac_f.norm()`,
`ritz_conv = (resid < bound)`; returns `ritz_conv.all()` together with the
updated state. -/
def converged (P : SymEigsConfig S) (tol : S) (s : ArpackState S) :
    Bool × ArpackState S :=
  let bound : Vec S := fun i => tol * max |s.ritz_val i| P.prec
  let resid : Vec S := fun i => |s.ritz_vec (P.ncv - 1) i| * P.norm s.fac_f
  let conv : ℕ → Bool := fun i =>
    if i < P.nev then decide (resid i < bound i) else s.ritz_conv i
  ((List.range P.nev).all conv, { s with ritz_conv := conv })

/-- `sort_ritzpair()` (SymEigsSolver.h lines 158-181): sorts the first `nev`
(ritz value, index) pairs with the LARGEST_MAGN comparator and permutes
`ritz_val`, `ritz_vec` and `ritz_conv` accordingly. -/
def sort_ritzpair (P : SymEigsConfig S) (s : ArpackState S) : ArpackState S :=
  let pairs0 := (List.range P.nev).map (fun i => (s.ritz_val i, i))
  let sorted := List.insertionSort (ruleLE SelRule.LARGEST_MAGN) pairs0
  { s with
    ritz_val := fun i =>
      if i < P.nev then (getIdx pairDflt sorted i).1 else s.ritz_val i,
    ritz_vec := fun r c =>
      if c < P.nev then s.ritz_vec r (getIdx pairDflt sorted c).2
      else s.ritz_vec r c,
    ritz_conv := fun i =>
      if i < P.nev then s.ritz_conv (getIdx pairDflt sorted i).2
      else s.ritz_conv i }

/-- One iteration of the shift loop of `restart` (SymEigsSolver.h lines
90-101), acting on `(fac_V, fac_H, em)`: `Q = householderQ(H - θ·I);
V := V·Q; H := Qᵀ·(H·Q); em := Qᵀ·em`. -/
def shiftStep (P : SymEigsConfig S) (θ : S) (t : Mat S × Mat S × Vec S) :
    Mat S × Mat S × Vec S :=
  let Q := P.qrQ (subShift t.2.1 θ)
  (matMul P.ncv t.1 Q,
   matMul P.ncv (transposeM Q) (matMul P.ncv t.2.1 Q),
   matVec P.ncv (transposeM Q) t.2.2)

/-- The unit vector `em` with `em[ncv-1] = 1` (SymEigsSolver.h lines 86-88). -/
def unitLast (ncv : ℕ) : Vec S := fun j => if j = ncv - 1 then 1 else 0

/-- `restart(k)` (SymEigsSolver.h lines 80-106): returns unchanged when
`k >= ncv`; otherwise applies the QR shift step for each `i = k, ..., ncv-1`
with shift `ritz_val[i]`, forms `fk = fac_f * em[k-1]`, re-factorizes from
`k` to `ncv` and re-retrieves the Ritz pairs. -/
def restart (P : SymEigsConfig S) (rule : SelRule) (k : ℕ)
    (s : ArpackState S) : ArpackState S :=
  if P.ncv ≤ k then s
  else
    let t := (List.range' k (P.ncv - k)).foldl
      (fun t i => shiftStep P (s.ritz_val i) t)
      (s.fac_V, s.fac_H, unitLast P.ncv)
    let fk : Vec S := fun r => s.fac_f r * t.2.2 (k - 1)
    retrieve_ritzpair P rule
      (factorize_from P k P.ncv fk { s with fac_V := t.1, fac_H := t.2.1 })

/-- The all-zero solver state (the effect of the `setZero()` calls at the top
of `init`; also stands for the freshly allocated state at construction). -/
def zeroState : ArpackState S :=
  ⟨fun _ _ => 0, fun _ _ => 0, fun _ => 0, fun _ => 0, fun _ _ => 0,
   fun _ => false⟩

/-- `init(init_coef)` (SymEigsSolver.h lines 199-217): zeroes all state, then
`matrix_operation(init_coef, v); v.normalize(); matrix_operation(v, w);
fac_H(0,0) = v.dot(w); fac_f = w - v * fac_H(0,0); fac_V.col(0) = v`.
Note the operator is applied to the seed before normalization, and then a
second time to the normalized image. -/
def init (P : SymEigsConfig S) (init_coef : Vec S) : ArpackState S :=
  let v0 := P.matrix_operation init_coef
  let v : Vec S := fun r => v0 r / P.norm v0
  let w := P.matrix_operation v
  let h00 := dot P.dim_n v w
  { zeroState (S := S) with
    fac_V := fun r c => if c = 0 then v r else 0,
    fac_H := fun r c => if r = 0 ∧ c = 0 then h00 else 0,
    fac_f := fun r => w r - v r * h00 }

/-- The restarting loop of `compute` (SymEigsSolver.h lines 232-239), with
the remaining iteration budget as fuel.  Returns the number of `restart`
calls performed together with the final state (including the `ritz_conv`
flags written by the terminating `converged` call, if any). -/
def computeLoop (P : SymEigsConfig S) (rule : SelRule) (tol : S) :
    ℕ → ArpackState S → ℕ × ArpackState S
  | 0, s => (0, s)
  | m + 1, s =>
    let c := converged P tol s
    if c.1 then (0, c.2)
    else
      let r := computeLoop P rule tol m (restart P rule P.nev c.2)
      (r.1 + 1, r.2)

/-- `compute(maxit, tol)` (SymEigsSolver.h lines 226-244): initial
`factorize_from(1, ncv, fac_f)` and `retrieve_ritzpair()`, the restarting
loop, the final `sort_ritzpair()`, and the returned value `i + 1`. -/
def compute (P : SymEigsConfig S) (rule : SelRule) (maxit : ℕ) (tol : S)
    (s : ArpackState S) : ℕ × ArpackState S :=
  let s1 := retrieve_ritzpair P rule (factorize_from P 1 P.ncv s.fac_f s)
  let r := computeLoop P rule tol maxit s1
  (r.1 + 1, sort_ritzpair P r.2)

/-- `eigenvalues()` (SymEigsSolver.h lines 247-266): the converged subset of
the first `nev` Ritz values, in index order. -/
def eigenvalues (P : SymEigsConfig S) (s : ArpackState S) : List S :=
  (List.range P.nev).foldl
    (fun acc i => if s.ritz_conv i then acc ++ [s.ritz_val i] else acc) []

/-- Column `i` of `fac_V * ritz_vec`: the Ritz vector lifted to the original
`n`-dimensional space. -/
def liftColumn (P : SymEigsConfig S) (s : ArpackState S) (i : ℕ) : Vec S :=
  fun r => ∑ j ∈ Finset.range P.ncv, s.fac_V r j * s.ritz_vec j i

/-- `eigenvectors()` (SymEigsSolver.h lines 269-289): collects the converged
columns of `ritz_vec` and lifts them through `fac_V`; the columns of the
returned `dim_n × nconv` matrix, in index order. -/
def eigenvectors (P : SymEigsConfig S) (s : ArpackState S) : List (Vec S) :=
  (List.range P.nev).foldl
    (fun acc i => if s.ritz_conv i then acc ++ [liftColumn P s i] else acc) []

/-- The `SymEigsSolver` constructor (SymEigsSolver.h lines 184-196): records
the borrowed operator, the dimensions `dim_n = op->rows()`, `nev`, `ncv` and
the precision constant, and allocates the state.  The body performs no
parameter validation and cannot fail, hence the unconditional `Except.ok`;
the `Except` wrapper makes an invalid-argument failure representable for
comparison with the spec. -/
def SymEigsSolver_new (op_rows : ℕ) (op_prod : Vec S → Vec S)
    (norm : Vec S → S) (eig : Mat S → Vec S × Mat S) (qrQ : Mat S → Mat S)
    (prec : S) (nev_ ncv_ : ℕ) :
    Except String (SymEigsConfig S × ArpackState S) :=
  Except.ok
    ({ dim_n := op_rows, nev := nev_, ncv := ncv_, prec := prec,
       matrix_operation := op_prod, norm := norm, eig := eig, qrQ := qrQ },
     zeroState)

/-- The state of a `DenseGenRealShiftSolve` collaborator
(DenseGenRealShiftSolve.h): the wrapped dense matrix, its dimension, and the
matrix whose LU factorization the internal `solver` currently holds. -/
structure DenseShiftSolveState (S : Type) : Type where
  mat : Mat S
  dim_n : ℕ
  shifted : Mat S

/-- The `DenseGenRealShiftSolve` constructor (DenseGenRealShiftSolve.h lines
24-30): throws `std::invalid_argument` when the matrix is not square. -/
def DenseGenRealShiftSolve_new (mat : Mat S) (rows cols : ℕ) :
    Except String (DenseShiftSolveState S) :=
  if rows ≠ cols then
    Except.error "DenseGenRealShiftSolve: matrix must be square"
  else Except.ok ⟨mat, rows, fun _ _ => 0⟩

/-- `DenseGenRealShiftSolve::set_shift(sigma)` (lines 36-39): factorizes
`A - σ·I` (the factorization object is modelled by storing the matrix). -/
def dense_set_shift (d : DenseShiftSolveState S) (σ : S) :
    DenseShiftSolveState S :=
  { d with shifted := subShift d.mat σ }

/-- `DenseGenRealShiftSolve::perform_op` (lines 42-47): solves the stored
pre-factorized system; `lu` stands for `PartialPivLU::solve`. -/
def dense_perform_op (lu : Mat S → Vec S → Vec S)
    (d : DenseShiftSolveState S) (x : Vec S) : Vec S :=
  lu d.shifted x

/-- Modelled from the spec: MatOp.h (the `MatOpWithRealShiftSolve` interface
consumed by `SymEigsShiftSolver`) is not among the available sources.  Per
spec §6 it exposes `rows()`, `set_shift(sigma)` and a shift-invert
application; `shift` is the shift stored by the last `set_shift` call and
`shift_solve` applies `(A - shift·I)⁻¹` for the stored shift. -/
structure MatOpShift (S : Type) : Type where
  rows : ℕ
  shift : S
  shift_solve : S → Vec S → Vec S

/-- Modelled from the spec: `set_shift(sigma)` stores the shift. -/
def matop_set_shift (op : MatOpShift S) (σ : S) : MatOpShift S :=
  { op with shift := σ }

/-- The `SymEigsShiftSolver` constructor (SymEigsSolver.h lines 319-326):
delegates to the base constructor and immediately calls
`op_shift->set_shift(sigma)`.  The overridden virtual `matrix_operation`
(lines 306-309) makes every matrix–vector step of the base algorithm call
`op_shift->shift_solve` instead of `op->prod`; this is reflected by the
`matrix_operation` field of the returned configuration. -/
def SymEigsShiftSolver_new (op : MatOpShift S) (norm : Vec S → S)
    (eig : Mat S → Vec S × Mat S) (qrQ : Mat S → Mat S) (prec : S)
    (nev_ ncv_ : ℕ) (σ : S) : MatOpShift S × SymEigsConfig S :=
  let op1 := matop_set_shift op σ
  (op1,
   { dim_n := op.rows, nev := nev_, ncv := ncv_, prec := prec,
     matrix_operation := fun x => op1.shift_solve op1.shift x,
     norm := norm, eig := eig, qrQ := qrQ })

/-- `SymEigsShiftSolver::sort_ritzpair()` (SymEigsSolver.h lines 312-317):
`ritz_val.head(nev) = 1 / ritz_val.head(nev) + sigma`, then the base
`sort_ritzpair()`. -/
def shift_sort_ritzpair (P : SymEigsConfig S) (σ : S) (s : ArpackState S) :
    ArpackState S :=
  let s1 := { s with ritz_val := fun i =>
    if i < P.nev then 1 / s.ritz_val i + σ else s.ritz_val i }
  sort_ritzpair P s1

end Solver

instance {S : Type} [LinearOrderedField S] (rule : SelRule) :
    IsTotal (S × ℕ) (ruleLE rule) :=
  ⟨ruleLE_total rule⟩

instance {S : Type} [LinearOrderedField S] (rule : SelRule) :
    IsTrans (S × ℕ) (ruleLE rule) :=
  ⟨ruleLE_trans rule⟩

section Helpers

variable {S : Type} [LinearOrderedField S]

theorem foldl_collect {α β : Type} (f : α → β) (p : α → Bool) (l : List α)
    (acc : List β) :
    l.foldl (fun acc i => if p i then acc ++ [f i] else acc) acc
      = acc ++ (l.filter p).map f := by
  induction l generalizing acc with
  | nil => simp
  | cons a l ih =>
    by_cases h : p a <;> simp [h, ih, List.filter_cons]

theorem foldl_congr_of_mem {α β : Type} (f g : β → α → β) (l : List α)
    (b : β) (h : ∀ b a, a ∈ l → f b a = g b a) :
    l.foldl f b = l.foldl g b := by
  induction l generalizing b with
  | nil => rfl
  | cons a l ih =>
    rw [List.foldl_cons, List.foldl_cons, h b a (by simp)]
    exact ih _ (fun b a ha => h b a (by simp [ha]))

theorem factorizeStep_ritz (P : SymEigsConfig S) (s : ArpackState S)
    (i : ℕ) :
    (factorizeStep P s i).ritz_val = s.ritz_val ∧
    (factorizeStep P s i).ritz_vec = s.ritz_vec ∧
    (factorizeStep P s i).ritz_conv = s.ritz_conv :=
  ⟨rfl, rfl, rfl⟩

theorem foldl_factorizeStep_ritz_conv (P : SymEigsConfig S) (l : List ℕ) :
    ∀ s : ArpackState S, (l.foldl (factorizeStep P) s).ritz_conv = s.ritz_conv := by
  induction l with
  | nil => intro s; rfl
  | cons a l ih =>
    intro s
    rw [List.foldl_cons, ih]
    rfl

theorem factorize_from_ritz_conv (P : SymEigsConfig S) (from_k to_m : ℕ)
    (fk : Vec S) (s : ArpackState S) :
    (factorize_from P from_k to_m fk s).ritz_conv = s.ritz_conv := by
  unfold factorize_from
  by_cases h : to_m ≤ from_k
  · simp [h]
  · rw [if_neg h, foldl_factorizeStep_ritz_conv]

theorem retrieve_ritzpair_ritz_conv (P : SymEigsConfig S) (rule : SelRule)
    (s : ArpackState S) :
    (retrieve_ritzpair P rule s).ritz_conv = s.ritz_conv :=
  rfl

theorem sort_ritzpair_conv_false (P : SymEigsConfig S) (s : ArpackState S)
    (h : ∀ i, s.ritz_conv i = false) :
    ∀ i, (sort_ritzpair P s).ritz_conv i = false := by
  intro i
  unfold sort_ritzpair
  by_cases hi : i < P.nev <;> simp [hi, h]

end Helpers

section SwapAnalysis

variable {S : Type} [LinearOrderedField S]

theorem length_swapFoldM (P : SymEigsConfig S) (m : ℕ) (l : List (S × ℕ)) :
    (swapFoldM P m l).length = l.length := by
  induction m with
  | zero => rfl
  | succ m ih =>
    unfold swapFoldM
    rw [List.range_succ, List.foldl_append, List.foldl_cons, List.foldl_nil,
      length_swapIdx]
    exact ih

theorem swapFoldM_succ (P : SymEigsConfig S) (m : ℕ) (l : List (S × ℕ)) :
    swapFoldM P (m + 1) l
      = swapIdx pairDflt (swapFoldM P m l) ((P.nev + 1) / 2 + m)
          (P.ncv - 1 - m) := by
  unfold swapFoldM
  rw [List.range_succ, List.foldl_append, List.foldl_cons, List.foldl_nil]

/-- Positional effect of the first `m` BOTH_ENDS swaps, provided no swap
crosses the midpoint (`offset + i ≤ ncv - 1 - i` for every performed swap):
positions `offset ≤ p < offset + m` receive the entry from the mirrored tail
position `ncv - 1 - (p - offset)`, the tail positions give up their entries
symmetrically, and every other position is untouched. -/
theorem swapFoldM_getIdx (P : SymEigsConfig S) (l : List (S × ℕ))
    (hlen : l.length = P.ncv) :
    ∀ m : ℕ, (P.nev + 1) / 2 + m ≤ P.ncv →
    (∀ i, i < m → (P.nev + 1) / 2 + i ≤ P.ncv - 1 - i) →
    ∀ p, getIdx pairDflt (swapFoldM P m l) p =
      if (P.nev + 1) / 2 ≤ p ∧ p < (P.nev + 1) / 2 + m then
        getIdx pairDflt l (P.ncv - 1 - (p - (P.nev + 1) / 2))
      else if P.ncv - m ≤ p ∧ p < P.ncv then
        getIdx pairDflt l ((P.nev + 1) / 2 + (P.ncv - 1 - p))
      else getIdx pairDflt l p := by
  intro m
  induction m with
  | zero =>
    intro _ _ p
    rw [if_neg (by omega), if_neg (by omega)]
    rfl
  | succ m ih =>
    intro hub hcross p
    have hub' : (P.nev + 1) / 2 + m ≤ P.ncv := by omega
    have hcross' : ∀ i, i < m → (P.nev + 1) / 2 + i ≤ P.ncv - 1 - i :=
      fun i hi => hcross i (by omega)
    have hcm : (P.nev + 1) / 2 + m ≤ P.ncv - 1 - m :=
      hcross m (Nat.lt_succ_self m)
    have hlenm : (swapFoldM P m l).length = P.ncv := by
      rw [length_swapFoldM, hlen]
    rw [swapFoldM_succ]
    by_cases hp1 : p = (P.nev + 1) / 2 + m
    · subst hp1
      rw [getIdx_swapIdx_left pairDflt _ _ _ (by omega) (by omega),
        ih hub' hcross' (P.ncv - 1 - m), if_neg (by omega), if_neg (by omega),
        if_pos (by omega)]
      congr 1
      omega
    · by_cases hp2 : p = P.ncv - 1 - m
      · subst hp2
        rw [getIdx_swapIdx_right pairDflt _ _ _ (by omega),
          ih hub' hcross' ((P.nev + 1) / 2 + m), if_neg (by omega),
          if_neg (by omega), if_neg (by omega), if_pos (by omega)]
        congr 1
        omega
      · rw [getIdx_swapIdx_ne pairDflt _ _ _ _ hp1 hp2, ih hub' hcross' p]
        by_cases c1 : (P.nev + 1) / 2 ≤ p ∧ p < (P.nev + 1) / 2 + m
        · rw [if_pos c1, if_pos (by omega)]
        · rw [if_neg c1]
          by_cases c2 : P.ncv - m ≤ p ∧ p < P.ncv
          · rw [if_pos c2, if_neg (by omega), if_pos (by omega)]
          · rw [if_neg c2, if_neg (by omega), if_neg (by omega)]

end SwapAnalysis

section LoopAnalysis

variable {S : Type} [LinearOrderedField S]

/-- One pass of the restarting loop body when not converged: the `converged`
call (which writes the `ritz_conv` flags) followed by `restart(nev)`. -/
def restartCycle (P : SymEigsConfig S) (rule : SelRule) (tol : S)
    (t : ArpackState S) : ArpackState S :=
  restart P rule P.nev (converged P tol t).2

/-- Whether `converged(tol)` holds at the top of iteration `j` of the
restarting loop started from `t`. -/
def convergedAt (P : SymEigsConfig S) (rule : SelRule) (tol : S)
    (t : ArpackState S) (j : ℕ) : Bool :=
  (converged P tol ((restartCycle P rule tol)^[j] t)).1

theorem computeLoop_exhaust (P : SymEigsConfig S) (rule : SelRule) (tol : S) :
    ∀ (m : ℕ) (t : ArpackState S),
    (∀ j, j < m → convergedAt P rule tol t j = false) →
    computeLoop P rule tol m t = (m, (restartCycle P rule tol)^[m] t) := by
  intro m
  induction m with
  | zero => intro t _; rfl
  | succ m ih =>
    intro t h
    have h0 : (converged P tol t).1 = false := by
      simpa [convergedAt] using h 0 (Nat.succ_pos m)
    have h' : ∀ j, j < m →
        convergedAt P rule tol (restartCycle P rule tol t) j = false := by
      intro j hj
      have := h (j + 1) (by omega)
      simpa [convergedAt, Function.iterate_succ_apply] using this
    simp only [computeLoop, h0, Bool.false_eq_true, if_false]
    rw [show restart P rule P.nev (converged P tol t).2
        = restartCycle P rule tol t from rfl, ih _ h',
      ← Function.iterate_succ_apply]

theorem computeLoop_stop (P : SymEigsConfig S) (rule : SelRule) (tol : S) :
    ∀ (k m : ℕ) (t : ArpackState S), k < m →
    (∀ j, j < k → convergedAt P rule tol t j = false) →
    convergedAt P rule tol t k = true →
    computeLoop P rule tol m t
      = (k, (converged P tol ((restartCycle P rule tol)^[k] t)).2) := by
  intro k
  induction k with
  | zero =>
    intro m t hkm _ hk
    cases m with
    | zero => omega
    | succ m =>
      rw [Function.iterate_zero_apply]
      have hk' : (converged P tol t).1 = true := by
        simpa [convergedAt] using hk
      simp [computeLoop, hk']
  | succ k ih =>
    intro m t hkm h hk
    cases m with
    | zero => omega
    | succ m =>
      have h0 : (converged P tol t).1 = false := by
        simpa [convergedAt] using h 0 (Nat.succ_pos k)
      have h' : ∀ j, j < k →
          convergedAt P rule tol (restartCycle P rule tol t) j = false := by
        intro j hj
        have := h (j + 1) (by omega)
        simpa [convergedAt, Function.iterate_succ_apply] using this
      have hk' : convergedAt P rule tol (restartCycle P rule tol t) k = true := by
        simpa [convergedAt, Function.iterate_succ_apply] using hk
      simp only [computeLoop, h0, Bool.false_eq_true, if_false]
      rw [show restart P rule P.nev (converged P tol t).2
          = restartCycle P rule tol t from rfl,
        ih m _ (by omega) h' hk', Function.iterate_succ_apply]

end LoopAnalysis

section ClaimSide

variable {S : Type} [LinearOrderedField S]

/-- The Arnoldi step exactly as the specification words it: store
`v = f/‖f‖` as column `i` of V; record `‖f‖` in `H(i, i-1)` and zero the rest
of row `i` to the left of the diagonal block; apply the operator to `v`
obtaining `w`; store the one-pass Gram-Schmidt projection
`h = V(cols 0..i)ᵀ·w` into column `i` of H (rows `0..i`); and set the new
residual to `w - V·h`. -/
def factorizeStepClaim (P : SymEigsConfig S) (s : ArpackState S) (i : ℕ) :
    ArpackState S :=
  let beta := P.norm s.fac_f
  let v : Vec S := fun r => s.fac_f r / beta
  let V1 : Mat S := fun r c => if c = i then v r else s.fac_V r c
  let w : Vec S := P.matrix_operation v
  let h : Vec S := fun j => dot P.dim_n (fun r => V1 r j) w
  { s with
    fac_V := V1,
    fac_H := fun r c =>
      if r = i ∧ c = i - 1 then beta
      else if r = i ∧ c < i then 0
      else if c = i ∧ r ≤ i then h r
      else s.fac_H r c,
    fac_f := fun r => w r - ∑ j ∈ Finset.range (i + 1), V1 r j * h j }

theorem factorizeStep_eq_claim (P : SymEigsConfig S) (s : ArpackState S)
    (i : ℕ) (hi : 0 < i) :
    factorizeStep P s i = factorizeStepClaim P s i := by
  unfold factorizeStep factorizeStepClaim
  ext r c
  · rfl
  · dsimp only
    by_cases h1 : c = i ∧ r ≤ i
    · rw [if_pos h1, if_neg (by omega), if_neg (by omega), if_pos h1]
    · rw [if_neg h1]
      by_cases h2 : r = i ∧ c = i - 1
      · rw [if_pos h2, if_pos h2]
      · rw [if_neg h2]
        by_cases h3 : r = i ∧ c < i
        · rw [if_pos h3, if_neg h2, if_pos h3]
        · rw [if_neg h3, if_neg h2, if_neg h3, if_neg h1]
  · rfl
  · rfl
  · rfl
  · rfl

end ClaimSide

section Examples

/-- The identity operator, a concrete `op->prod`. -/
def qIdOp : Vec ℚ → Vec ℚ := fun v => v

/-- A concrete stand-in for `SelfAdjointEigenSolver`: diagonal read-out. -/
def qEig : Mat ℚ → Vec ℚ × Mat ℚ :=
  fun H => (fun i => H i i, fun r c => if r = c then 1 else 0)

/-- A concrete stand-in for `householderQ`: the identity matrix. -/
def qOrtho : Mat ℚ → Mat ℚ := fun _ r c => if r = c then 1 else 0

/-- A small concrete solver configuration over `ℚ` (`n = 2`, `nev = 1`,
`ncv = 2`) used to instantiate proved theorems at concrete inputs. -/
def qConfig : SymEigsConfig ℚ :=
  { dim_n := 2, nev := 1, ncv := 2, prec := 0,
    matrix_operation := qIdOp, norm := fun _ => 1, eig := qEig, qrQ := qOrtho }

/-- A concrete solver state (the zero state). -/
def qState : ArpackState ℚ := zeroState

/-- Coordinate-swap operator used in the `init` counterexample. -/
def swapOp : Vec ℚ → Vec ℚ :=
  fun v r => if r = 0 then v 1 else if r = 1 then v 0 else 0

/-- Configuration wrapping the coordinate-swap operator, with a norm function
constantly 1 so that normalization does not rescale. -/
def cfgSwap : SymEigsConfig ℚ :=
  { dim_n := 2, nev := 1, ncv := 2, prec := 0,
    matrix_operation := swapOp, norm := fun _ => 1, eig := qEig, qrQ := qOrtho }

/-- The seed vector `e₀`. -/
def seedE0 : Vec ℚ := fun r => if r = 0 then 1 else 0

/-- Truncation-to-two-coordinates operator (the identity on the live block),
used in the residual-breakdown run. -/
def truncOp : Vec ℚ → Vec ℚ := fun v r => if r < 2 then v r else 0

/-- A norm function that is honest at every vector the breakdown run
evaluates it on: the zero vector has norm 0 and `(3,4)` has norm 5. -/
def normB : Vec ℚ → ℚ :=
  fun v => if v 0 = 0 ∧ v 1 = 0 then 0 else if v 0 = 3 ∧ v 1 = 4 then 5 else 1

/-- Configuration for the residual-breakdown run. -/
def cfgB : SymEigsConfig ℚ :=
  { dim_n := 2, nev := 1, ncv := 2, prec := 0,
    matrix_operation := truncOp, norm := normB, eig := qEig, qrQ := qOrtho }

/-- The seed vector `(3, 4)`. -/
def seedB : Vec ℚ := fun r => if r = 0 then 3 else if r = 1 then 4 else 0

end Examples

section Claims1

variable {S : Type} [LinearOrderedField S]

/-- Claim C3: for every tolerance, `converged(tolerance)` sets, for each of
the first `nev` Ritz pairs, its convergence flag to true if and only if
`|last-row entry of its Ritz vector| · ‖f‖ < tolerance · max(precisionFloor,
|ritzValue|)` (the precision floor being the `prec` constant of the
configuration), and it returns true if and only if all `nev` flags are
true. -/
theorem claim_converged_flags (P : SymEigsConfig S) (tol : S)
    (s : ArpackState S) :
    (∀ i, i < P.nev →
      ((converged P tol s).2.ritz_conv i = true ↔
        |s.ritz_vec (P.ncv - 1) i| * P.norm s.fac_f
          < tol * max P.prec |s.ritz_val i|)) ∧
    ((converged P tol s).1 = true ↔
      ∀ i, i < P.nev → (converged P tol s).2.ritz_conv i = true) := by
  unfold converged
  dsimp only
  constructor
  · intro i hi
    rw [if_pos hi, decide_eq_true_iff, max_comm]
  · rw [List.all_eq_true]
    constructor
    · intro hall i hi
      exact hall i (List.mem_range.mpr hi)
    · intro hflag i hmem
      exact hflag i (List.mem_range.mp hmem)

/-- Witness for the C3 theorem at a concrete configuration and state. -/
theorem claim_converged_flags_witness :
    (0 < qConfig.nev) ∧
    ((converged qConfig 1 qState).2.ritz_conv 0 = true ↔
      |qState.ritz_vec (qConfig.ncv - 1) 0| * qConfig.norm qState.fac_f
        < 1 * max qConfig.prec |qState.ritz_val 0|) :=
  ⟨by decide, (claim_converged_flags qConfig 1 qState).1 0 (by decide)⟩

/-- Claim C9 (evaluated on the code): constructing `SymEigsSolver` with
degenerate parameters does not fail — the constructor body performs no
validation at all, for any parameters.  Shown at `nev = 0` (violating
`nev > 0`, with `ncv = 2 < n = 5`), at `nev = ncv = 3`, at `ncv = 2 = n`,
and in general. -/
theorem claim_constructor_no_validation :
    (SymEigsSolver_new 5 qIdOp (fun _ => 1) qEig qOrtho 0 0 2).isOk = true ∧
    (SymEigsSolver_new 5 qIdOp (fun _ => 1) qEig qOrtho 0 3 3).isOk = true ∧
    (SymEigsSolver_new 2 qIdOp (fun _ => 1) qEig qOrtho 0 1 2).isOk = true ∧
    (∀ (op_rows : ℕ) (op_prod : Vec ℚ → Vec ℚ) (norm : Vec ℚ → ℚ)
      (eig : Mat ℚ → Vec ℚ × Mat ℚ) (qrQ : Mat ℚ → Mat ℚ) (prec : ℚ)
      (nev_ ncv_ : ℕ),
      (SymEigsSolver_new op_rows op_prod norm eig qrQ prec nev_ ncv_).isOk
        = true) :=
  ⟨rfl, rfl, rfl, fun _ _ _ _ _ _ _ _ => rfl⟩

/-- By contrast, the dense shift-solve collaborator does fail with an
invalid-argument condition on a non-square input (DenseGenRealShiftSolve.h
lines 28-29). -/
theorem dense_ctor_rejects_nonsquare :
    (DenseGenRealShiftSolve_new (fun _ _ => (0 : ℚ)) 2 3).isOk = false :=
  rfl

/-- Claim C5 counterexample: with the coordinate-swap operator and seed `e₀`
(norm function constantly 1, so normalization does not rescale), the first
basis column stored by `init` is not the normalized seed vector: `init`
normalizes and stores the operator image of the seed instead. -/
theorem claim_init_counterexample :
    ¬ ((init cfgSwap seedE0).fac_V 0 0 = seedE0 0 / cfgSwap.norm seedE0) := by
  simp [init, cfgSwap, swapOp, seedE0]

/-- Claim C5 (amended): `init(seed)` applies the operator to the seed,
normalizes the image `v = op(seed)/‖op(seed)‖`, applies the operator a second
time to `v` obtaining `w`, and stores `v` as the first basis column,
`H(0,0) = v·w` and `f = w - v·H(0,0)`, zeroing all other state. -/
theorem claim_init_amended (P : SymEigsConfig S) (coef : Vec S) :
    (∀ r, (init P coef).fac_V r 0
      = P.matrix_operation coef r / P.norm (P.matrix_operation coef)) ∧
    (∀ r c, c ≠ 0 → (init P coef).fac_V r c = 0) ∧
    ((init P coef).fac_H 0 0
      = dot P.dim_n
          (fun r => P.matrix_operation coef r / P.norm (P.matrix_operation coef))
          (P.matrix_operation
            (fun r => P.matrix_operation coef r / P.norm (P.matrix_operation coef)))) ∧
    (∀ r c, ¬(r = 0 ∧ c = 0) → (init P coef).fac_H r c = 0) ∧
    (∀ r, (init P coef).fac_f r
      = P.matrix_operation
          (fun q => P.matrix_operation coef q / P.norm (P.matrix_operation coef)) r
        - (P.matrix_operation coef r / P.norm (P.matrix_operation coef))
          * (init P coef).fac_H 0 0) ∧
    (∀ i, (init P coef).ritz_conv i = false) ∧
    (∀ i, (init P coef).ritz_val i = 0) ∧
    (∀ r c, (init P coef).ritz_vec r c = 0) := by
  refine ⟨fun r => rfl, fun r c hc => ?_, rfl, fun r c hrc => ?_,
    fun r => rfl, fun i => rfl, fun i => rfl, fun r c => rfl⟩
  · unfold init
    dsimp only
    rw [if_neg hc]
  · unfold init
    dsimp only
    rw [if_neg hrc]

/-- Witness for the amended C5 theorem at a concrete input. -/
theorem claim_init_amended_witness :
    (init cfgSwap seedE0).fac_V 0 1 = 0 :=
  (claim_init_amended cfgSwap seedE0).2.1 0 1 (by decide)

/-- Claim C6: the shift-invert solver invokes `set_shift(σ)` on the operator
at construction, its `matrix_operation` (used for every matrix-vector step of
the base algorithm) is the operator's shift-invert application at the stored
shift, and its final sort first replaces each of the first `nev` Ritz values
`λ` by `1/λ + σ` and only then delegates to the base `sort_ritzpair`. -/
theorem claim_shift_solver (op : MatOpShift S) (norm : Vec S → S)
    (eig : Mat S → Vec S × Mat S) (qrQ : Mat S → Mat S) (prec : S)
    (nev_ ncv_ : ℕ) (σ : S) :
    (SymEigsShiftSolver_new op norm eig qrQ prec nev_ ncv_ σ).1
        = matop_set_shift op σ ∧
    (SymEigsShiftSolver_new op norm eig qrQ prec nev_ ncv_ σ).1.shift = σ ∧
    (∀ x,
      (SymEigsShiftSolver_new op norm eig qrQ prec nev_ ncv_ σ).2.matrix_operation x
        = op.shift_solve σ x) ∧
    (∀ s : ArpackState S,
      shift_sort_ritzpair
          (SymEigsShiftSolver_new op norm eig qrQ prec nev_ ncv_ σ).2 σ s
        = sort_ritzpair (SymEigsShiftSolver_new op norm eig qrQ prec nev_ ncv_ σ).2
            { s with ritz_val := fun i =>
                if i < nev_ then 1 / s.ritz_val i + σ else s.ritz_val i }) :=
  ⟨rfl, rfl, fun _ => rfl, fun _ => rfl⟩

/-- Claim C8: `eigenvalues()` returns exactly the converged among the first
`nev` Ritz values, order preserved, `eigenvectors()` the matching lifted
columns `V · ritzVector` in the same order, and both are empty (not an
error) when no pair is converged — in particular after `compute` with
`maxIterations = 0` following `init`, where no convergence check runs. -/
theorem claim_eigen_accessors (P : SymEigsConfig S) (s : ArpackState S) :
    eigenvalues P s
      = ((List.range P.nev).filter (fun i => s.ritz_conv i)).map s.ritz_val ∧
    eigenvectors P s
      = ((List.range P.nev).filter (fun i => s.ritz_conv i)).map (liftColumn P s) ∧
    ((∀ i, i < P.nev → s.ritz_conv i = false) →
      eigenvalues P s = [] ∧ eigenvectors P s = []) ∧
    (∀ (rule : SelRule) (tol : S) (coef : Vec S),
      eigenvalues P (compute P rule 0 tol (init P coef)).2 = [] ∧
      eigenvectors P (compute P rule 0 tol (init P coef)).2 = []) := by
  have hgen : ∀ t : ArpackState S,
      eigenvalues P t
        = ((List.range P.nev).filter (fun i => t.ritz_conv i)).map t.ritz_val ∧
      eigenvectors P t
        = ((List.range P.nev).filter (fun i => t.ritz_conv i)).map (liftColumn P t) := by
    intro t
    constructor
    · exact (foldl_collect t.ritz_val t.ritz_conv (List.range P.nev) []).trans
        (by simp)
    · exact (foldl_collect (liftColumn P t) t.ritz_conv (List.range P.nev) []).trans
        (by simp)
  have hempty : ∀ t : ArpackState S, (∀ i, i < P.nev → t.ritz_conv i = false) →
      eigenvalues P t = [] ∧ eigenvectors P t = [] := by
    intro t ht
    have hf : (List.range P.nev).filter (fun i => t.ritz_conv i) = [] := by
      rw [List.filter_eq_nil_iff]
      intro a ha
      simp [ht a (List.mem_range.mp ha)]
    rw [(hgen t).1, (hgen t).2, hf]
    exact ⟨rfl, rfl⟩
  refine ⟨(hgen s).1, (hgen s).2, hempty s, ?_⟩
  intro rule tol coef
  apply hempty
  intro i _
  show (sort_ritzpair P (retrieve_ritzpair P rule
    (factorize_from P 1 P.ncv (init P coef).fac_f (init P coef)))).ritz_conv i
      = false
  apply sort_ritzpair_conv_false
  intro j
  rw [retrieve_ritzpair_ritz_conv, factorize_from_ritz_conv]
  rfl

/-- Witness for the C8 theorem: empty accessors on the all-unconverged
concrete state. -/
theorem claim_eigen_accessors_witness :
    eigenvalues qConfig qState = [] ∧ eigenvectors qConfig qState = [] :=
  (claim_eigen_accessors qConfig qState).2.2.1 (fun _ _ => rfl)

end Claims1

section Claims2

variable {S : Type} [LinearOrderedField S]

/-- Claim C2: `factorize_from(fromStep, toStep, fk)` is a no-op when
`toStep ≤ fromStep`; otherwise, for each step `i` from `fromStep` to
`toStep - 1`, it performs exactly the step the specification describes
(`factorizeStepClaim`): store `v = f/‖f‖` as column `i` of V, record `‖f‖`
in `H(i, i-1)` and zero the rest of row `i` left of the diagonal block,
apply the operator to `v` obtaining `w`, store the one-pass Gram-Schmidt
projection `h = V(cols 0..i)ᵀ·w` into column `i` of H, and set the residual
to `w - V·h`.  Stated for `fromStep ≥ 1`, matching every call site (the
source reads `fac_H(i, i-1)`, so `i ≥ 1` throughout). -/
theorem claim_factorize_from (P : SymEigsConfig S) (from_k to_m : ℕ)
    (fk : Vec S) (s : ArpackState S) (hk : 0 < from_k) :
    (to_m ≤ from_k → factorize_from P from_k to_m fk s = s) ∧
    (from_k < to_m → factorize_from P from_k to_m fk s
      = (List.range' from_k (to_m - from_k)).foldl (factorizeStepClaim P)
          { s with fac_f := fk }) := by
  constructor
  · intro h
    unfold factorize_from
    rw [if_pos h]
  · intro h
    unfold factorize_from
    rw [if_neg (by omega)]
    apply foldl_congr_of_mem
    intro t a ha
    have ha1 : 0 < a := by
      have := List.mem_range'_1.mp ha
      omega
    exact factorizeStep_eq_claim P t a ha1

/-- Witness for the C2 theorem: the no-op boundary at a concrete input. -/
theorem claim_factorize_from_witness :
    factorize_from qConfig 1 1 (fun _ => 0) qState = qState :=
  (claim_factorize_from qConfig 1 1 (fun _ => 0) qState (by decide)).1
    (by decide)

/-- Claim C4: for `keep < ncv`, `restart(keep)` applies, for each of the
`ncv - keep` Ritz values `θ = ritz_val[i]` (`i = keep, ..., ncv - 1`: the
values beyond the first `keep` in current sort order), the Householder QR
shift step `Q = householderQ(H - θ·I); V := V·Q; H := Qᵀ·H·Q; em := Qᵀ·em`;
after all shifts it sets the residual seed to `f · em[keep-1]`, extends the
factorization from `keep` back to `ncv`, and re-derives the Ritz pairs.  For
`keep ≥ ncv` it returns without changing any state.  Stated for `keep ≥ 1`,
matching the only call site (`restart(nev)`) and the `em[keep-1]` access. -/
theorem claim_restart (P : SymEigsConfig S) (rule : SelRule) (k : ℕ)
    (s : ArpackState S) (hk : 0 < k) :
    (P.ncv ≤ k → restart P rule k s = s) ∧
    (k < P.ncv → restart P rule k s
      = (let t := ((List.range' k (P.ncv - k)).map s.ritz_val).foldl
            (fun t θ => shiftStep P θ t) (s.fac_V, s.fac_H, unitLast P.ncv)
         retrieve_ritzpair P rule
           (factorize_from P k P.ncv (fun r => s.fac_f r * t.2.2 (k - 1))
             { s with fac_V := t.1, fac_H := t.2.1 }))) := by
  constructor
  · intro h
    unfold restart
    rw [if_pos h]
  · intro h
    unfold restart
    rw [if_neg (by omega)]
    dsimp only
    rw [List.foldl_map]

/-- Witness for the C4 theorem: the no-op boundary at a concrete input. -/
theorem claim_restart_witness :
    restart qConfig SelRule.LARGEST_MAGN 3 qState = qState :=
  (claim_restart qConfig SelRule.LARGEST_MAGN 3 qState (by decide)).1
    (by decide)

/-- Claim C10: a reachable solver state with residual norm `‖f‖ = 0` exists
— with the truncation operator and seed `(3,4)`, `init` produces an exactly
zero residual — and on it the factorization step performs the normalization
`f/‖f‖` without any guard: the subdiagonal entry it records is the zero norm
itself and the new basis column is literally `f r / ‖f‖` with `‖f‖ = 0`; no
branch of the factorization or restart path tests the norm before the
division. -/
theorem claim_breakdown_unguarded :
    ∃ (P : SymEigsConfig ℚ) (coef : Vec ℚ),
      (∀ r, (init P coef).fac_f r = 0) ∧
      P.norm (init P coef).fac_f = 0 ∧
      (factorize_from P 1 P.ncv (init P coef).fac_f (init P coef)).fac_H 1 0
        = 0 ∧
      (∀ r,
        (factorize_from P 1 P.ncv (init P coef).fac_f (init P coef)).fac_V r 1
          = (init P coef).fac_f r / P.norm (init P coef).fac_f) := by
  have hzero : ∀ r, (init cfgB seedB).fac_f r = 0 := by
    intro r
    by_cases hr : r < 2
    · interval_cases r <;>
        norm_num [init, cfgB, truncOp, normB, seedB, dot,
          Finset.sum_range_succ]
    · simp [init, cfgB, truncOp, normB, seedB, hr]
  have hnorm : cfgB.norm (init cfgB seedB).fac_f = 0 := by
    show normB _ = 0
    unfold normB
    rw [if_pos ⟨hzero 0, hzero 1⟩]
  exact ⟨cfgB, seedB, hzero, hnorm, hnorm, fun r => rfl⟩

end Claims2

section Claims3

variable {S : Type} [LinearOrderedField S]

/-- Claim C1: `compute(maxIterations, tolerance)` first performs one
factorization `factorize_from(1, ncv, fac_f)` followed by
`retrieve_ritzpair()`; it then iterates at most `maxIterations` times,
stopping as soon as `converged(tolerance)` holds at the top of an iteration
and otherwise calling `restart(nev)`; after the loop — whether by convergence
or exhaustion — it performs the final sort, and it returns one more than the
number of restart iterations actually performed (the terminating pass
included). -/
theorem claim_compute (P : SymEigsConfig S) (rule : SelRule) (maxit : ℕ)
    (tol : S) (s : ArpackState S) (s1 : ArpackState S)
    (hs1 : s1 = retrieve_ritzpair P rule (factorize_from P 1 P.ncv s.fac_f s)) :
    ((∀ j, j < maxit → convergedAt P rule tol s1 j = false) →
      compute P rule maxit tol s
        = (maxit + 1, sort_ritzpair P ((restartCycle P rule tol)^[maxit] s1))) ∧
    (∀ k, k < maxit → (∀ j, j < k → convergedAt P rule tol s1 j = false) →
      convergedAt P rule tol s1 k = true →
      compute P rule maxit tol s
        = (k + 1, sort_ritzpair P
            (converged P tol ((restartCycle P rule tol)^[k] s1)).2)) := by
  subst hs1
  constructor
  · intro h
    unfold compute
    dsimp only
    rw [computeLoop_exhaust P rule tol maxit _ h]
  · intro k hk h hkc
    unfold compute
    dsimp only
    rw [computeLoop_stop P rule tol k maxit _ hk h hkc]

/-- Witness for the C1 theorem: with `maxIterations = 0` the loop never runs
and `compute` returns 1 together with the sorted initial retrieval. -/
theorem claim_compute_witness :
    compute qConfig SelRule.LARGEST_MAGN 0 0 qState
      = (1, sort_ritzpair qConfig (retrieve_ritzpair qConfig
          SelRule.LARGEST_MAGN
          (factorize_from qConfig 1 qConfig.ncv qState.fac_f qState))) := by
  have h := (claim_compute qConfig SelRule.LARGEST_MAGN 0 0 qState _ rfl).1
    (fun j hj => absurd hj (Nat.not_lt_zero j))
  simpa using h

/-- Claim C7: `retrieve_ritzpair()` sorts all `ncv` (eigenvalue, index) pairs
of the eigendecomposition of H by the active selection rule (the sorted list
is ordered by the rule and is a permutation of the pairs), and under
BOTH_ENDS reorders so that the `nev` wanted values form a prefix of the
`⌈nev/2⌉` largest algebraic values followed by the `⌊nev/2⌋` smallest, moved
up from the tail of the sorted list; it writes all `ncv` values of the
rearranged list into `ritz_val` and the matching first `nev` eigenvector
columns into `ritz_vec`.  Stated in the regime where the swap loop's source
and target ranges do not cross (`nev + ⌊nev/2⌋ ≤ ncv + 1`), which every
`swap(pairs[offset+i], pairs[ncv-1-i])` of the source needs in order to take
its smallest values from the tail. -/
theorem claim_retrieve_ritzpair (P : SymEigsConfig S) (s : ArpackState S)
    (hnev : 0 < P.nev) (hlt : P.nev < P.ncv)
    (hreg : P.nev + (P.nev - (P.nev + 1) / 2) ≤ P.ncv + 1) :
    List.Sorted (ruleLE SelRule.BOTH_ENDS) (sortedPairs P SelRule.BOTH_ENDS s) ∧
    (sortedPairs P SelRule.BOTH_ENDS s).Perm (hEigPairs P s) ∧
    (∀ rule, rule ≠ SelRule.BOTH_ENDS → ∀ i, i < P.ncv →
      (retrieve_ritzpair P rule s).ritz_val i
        = (getIdx pairDflt (sortedPairs P rule s) i).1) ∧
    (∀ i, i < (P.nev + 1) / 2 →
      getIdx pairDflt (swapFold P (sortedPairs P SelRule.BOTH_ENDS s)) i
        = getIdx pairDflt (sortedPairs P SelRule.BOTH_ENDS s) i) ∧
    (∀ i, (P.nev + 1) / 2 ≤ i → i < P.nev →
      getIdx pairDflt (swapFold P (sortedPairs P SelRule.BOTH_ENDS s)) i
        = getIdx pairDflt (sortedPairs P SelRule.BOTH_ENDS s)
            (P.ncv - 1 - (i - (P.nev + 1) / 2))) ∧
    (∀ i, i < P.ncv →
      (retrieve_ritzpair P SelRule.BOTH_ENDS s).ritz_val i
        = (getIdx pairDflt
            (swapFold P (sortedPairs P SelRule.BOTH_ENDS s)) i).1) ∧
    (∀ r c, c < P.nev →
      (retrieve_ritzpair P SelRule.BOTH_ENDS s).ritz_vec r c
        = (P.eig s.fac_H).2 r
            (getIdx pairDflt
              (swapFold P (sortedPairs P SelRule.BOTH_ENDS s)) c).2) ∧
    (∀ rule, rule ≠ SelRule.BOTH_ENDS → ∀ r c, c < P.nev →
      (retrieve_ritzpair P rule s).ritz_vec r c
        = (P.eig s.fac_H).2 r
            (getIdx pairDflt (sortedPairs P rule s) c).2) := by
  have hlen : (sortedPairs P SelRule.BOTH_ENDS s).length = P.ncv := by
    unfold sortedPairs hEigPairs
    rw [List.length_insertionSort, List.length_map, List.length_range]
  have hub : (P.nev + 1) / 2 + (P.nev - (P.nev + 1) / 2) ≤ P.ncv := by omega
  have hcross : ∀ i, i < P.nev - (P.nev + 1) / 2 →
      (P.nev + 1) / 2 + i ≤ P.ncv - 1 - i := by
    intro i hi
    omega
  have hswap := swapFoldM_getIdx P (sortedPairs P SelRule.BOTH_ENDS s) hlen
    (P.nev - (P.nev + 1) / 2) hub hcross
  refine ⟨List.sorted_insertionSort _ _, List.perm_insertionSort _ _,
    ?_, ?_, ?_, ?_, ?_, ?_⟩
  · intro rule hrule i hi
    unfold retrieve_ritzpair
    dsimp only
    rw [if_pos hi, if_neg hrule]
  · intro i hi
    rw [show swapFold P (sortedPairs P SelRule.BOTH_ENDS s)
        = swapFoldM P (P.nev - (P.nev + 1) / 2)
            (sortedPairs P SelRule.BOTH_ENDS s) from rfl,
      hswap i, if_neg (by omega), if_neg (by omega)]
  · intro i h1 h2
    rw [show swapFold P (sortedPairs P SelRule.BOTH_ENDS s)
        = swapFoldM P (P.nev - (P.nev + 1) / 2)
            (sortedPairs P SelRule.BOTH_ENDS s) from rfl,
      hswap i, if_pos (by omega)]
  · intro i hi
    unfold retrieve_ritzpair
    dsimp only
    rw [if_pos hi, if_pos rfl]
  · intro r c hc
    unfold retrieve_ritzpair
    dsimp only
    rw [if_pos hc, if_pos rfl]
  · intro rule hrule r c hc
    unfold retrieve_ritzpair
    dsimp only
    rw [if_pos hc, if_neg hrule]

/-- Witness for the C7 theorem at a concrete configuration. -/
theorem claim_retrieve_ritzpair_witness :
    getIdx pairDflt (swapFold qConfig
        (sortedPairs qConfig SelRule.BOTH_ENDS qState)) 0
      = getIdx pairDflt (sortedPairs qConfig SelRule.BOTH_ENDS qState) 0 :=
  (claim_retrieve_ritzpair qConfig qState (by decide) (by decide)
    (by decide)).2.2.2.1 0 (by decide)

end Claims3
